import Mathlib

/-!
Shallow embedding of the `thisconfig` configuration loader
(`src/thisconfig/src/{builder,interpolation,config,error}.rs`) and proofs
of its specified properties.

External collaborators (process environment, filesystem, the `toml` crate's
parser and the serde deserializer of a section type) are modelled as explicit
values or function parameters; everything of the repository's own code is
translated directly from the Rust source.
-/

set_option autoImplicit false

namespace ThisConfig

/-- Mirrors `toml::Value`: a recursive variant over strings, integers,
floats, booleans, datetimes, arrays and string-keyed tables.  A table is an
association list of key/value pairs (the crate's `toml::map::Map`); float
payloads are carried as their raw bit pattern, which the loader never
inspects. -/
inductive Value where
  | str (s : String)
  | int (i : Int)
  | float (bits : Nat)
  | bool (b : Bool)
  | datetime (s : String)
  | arr (vs : List Value)
  | table (t : List (String × Value))

/-- A raw TOML table, the universal intermediate representation. -/
abbrev Table := List (String × Value)

/-- `Map::get`: first value stored under `k`, if any. -/
def tableGet (t : Table) (k : String) : Option Value :=
  match t with
  | [] => none
  | (k', v) :: rest => if k' = k then some v else tableGet rest k

/-- `Map::insert`: replace the value of an existing key, else add the pair. -/
def tableInsert (t : Table) (k : String) (v : Value) : Table :=
  match t with
  | [] => [(k, v)]
  | (k', v') :: rest =>
    if k' = k then (k', v) :: rest else (k', v') :: tableInsert rest k v

mutual
/-- The per-key decision of `ConfigBuilder::merge_tables`
(src/thisconfig/src/builder.rs:112-126): when the base already holds a table
under the key and the incoming value is itself a table, the two tables are
merged recursively (the Rust code mutates the existing table in place, which
under `tableInsert`'s replace-in-place semantics is storing the merged
table back under the key); every other combination keeps the incoming value
wholesale. -/
def mergeInto (existing : Option Value) (v : Value) : Value :=
  match existing, v with
  | some (Value.table bt), Value.table ot => Value.table (mergeTables bt ot)
  | _, _ => v
termination_by sizeOf v

/-- `ConfigBuilder::merge_tables` (src/thisconfig/src/builder.rs:110-128):
fold over the entries of `other` in order, resolving each against `base`. -/
def mergeTables (base : Table) : Table → Table
  | [] => base
  | (k, v) :: rest =>
    mergeTables (tableInsert base k (mergeInto (tableGet base k) v)) rest
termination_by other => sizeOf other
end

/-- The data-model invariant: keys are unique within a table. -/
def keysNodup (t : Table) : Prop := (t.map Prod.fst).Nodup

instance (t : Table) : Decidable (keysNodup t) := by
  unfold keysNodup; infer_instance

theorem tableGet_insert_self (t : Table) (k : String) (v : Value) :
    tableGet (tableInsert t k v) k = some v := by
  induction t with
  | nil => simp [tableInsert, tableGet]
  | cons hd rest ih =>
    obtain ⟨k', v'⟩ := hd
    by_cases h : k' = k
    · simp [tableInsert, tableGet, h]
    · simp only [tableInsert, if_neg h, tableGet, if_neg h]
      exact ih

theorem tableGet_insert_ne (t : Table) (k k' : String) (v : Value)
    (h : k' ≠ k) : tableGet (tableInsert t k v) k' = tableGet t k' := by
  have h' : k ≠ k' := fun hh => h hh.symm
  induction t with
  | nil => simp [tableInsert, tableGet, h']
  | cons hd rest ih =>
    obtain ⟨k₀, v₀⟩ := hd
    by_cases h₀ : k₀ = k
    · subst h₀
      simp [tableInsert, tableGet, h']
    · simp only [tableInsert, if_neg h₀, tableGet]
      by_cases h₁ : k₀ = k' <;> simp [h₁, ih]

theorem tableGet_eq_none_of_not_mem_keys (t : Table) (k : String)
    (h : k ∉ t.map Prod.fst) : tableGet t k = none := by
  induction t with
  | nil => rfl
  | cons hd rest ih =>
    obtain ⟨k₀, v₀⟩ := hd
    simp only [List.map_cons, List.mem_cons, not_or] at h
    have hne : k₀ ≠ k := fun hh => h.1 hh.symm
    simp only [tableGet, if_neg hne]
    exact ih h.2

/-- Keys not mentioned by `other` keep their `base` value. -/
theorem tableGet_mergeTables_not_mem (base other : Table) (k : String)
    (h : tableGet other k = none) :
    tableGet (mergeTables base other) k = tableGet base k := by
  induction other generalizing base with
  | nil => simp [mergeTables]
  | cons hd rest ih =>
    obtain ⟨k₀, v₀⟩ := hd
    have hne : k₀ ≠ k := by
      intro hc; simp [tableGet, hc] at h
    have hrest : tableGet rest k = none := by
      simpa [tableGet, hne] using h
    rw [mergeTables, ih _ hrest, tableGet_insert_ne _ _ _ _ (fun hh => hne hh.symm)]

/-- Lookup in a deep merge, for an incoming table with unique keys. -/
theorem tableGet_mergeTables (base other : Table) (k : String)
    (hnd : keysNodup other) :
    tableGet (mergeTables base other) k =
      match tableGet other k with
      | none => tableGet base k
      | some v =>
        match tableGet base k, v with
        | some (Value.table bt), Value.table ot =>
          some (Value.table (mergeTables bt ot))
        | _, _ => some v := by
  induction other generalizing base with
  | nil => simp [mergeTables, tableGet]
  | cons hd rest ih =>
    obtain ⟨k₀, v₀⟩ := hd
    have hnd₀ : k₀ ∉ rest.map Prod.fst ∧ (rest.map Prod.fst).Nodup := by
      rw [keysNodup, List.map_cons, List.nodup_cons] at hnd
      exact hnd
    have hnd' : keysNodup rest := hnd₀.2
    by_cases hk : k₀ = k
    · subst hk
      have hrest : tableGet rest k₀ = none :=
        tableGet_eq_none_of_not_mem_keys _ _ hnd₀.1
      rw [mergeTables, tableGet_mergeTables_not_mem _ _ _ hrest,
        tableGet_insert_self]
      simp only [tableGet, if_pos rfl]
      rcases hget : tableGet base k₀ with _ | w
      · rcases v₀ with s | i | fb | b | d | vs | t <;> simp [mergeInto]
      · rcases w with s | i | fb | b | d | vs | t <;>
          rcases v₀ with s' | i' | fb' | b' | d' | vs' | t' <;> simp [mergeInto]
    · rw [mergeTables, ih _ hnd',
        tableGet_insert_ne _ _ _ _ (fun hh => hk hh.symm)]
      simp [tableGet, hk]

/-! ## Interpolation (src/thisconfig/src/interpolation.rs)

The two regex-driven phases are embedded as explicit scanners over the
character list of the text.  Each scanner mirrors `Regex::captures_iter` of
regex-lite for the concrete pattern compiled in the source: it walks the
text left to right, emitting non-overlapping leftmost matches and resuming
after each match's end.  `replaceAll` mirrors `str::replace` (replace every
non-overlapping occurrence, left to right).  The process environment and
the filesystem are explicit parameters. -/

/-- The process environment, looked up by `std::env::var`. -/
abbrev Env := List (String × String)

def envVar (env : Env) (name : String) : Option String :=
  match env with
  | [] => none
  | (n, v) :: rest => if n = name then some v else envVar rest name

/-- `[A-Za-z_]`, the first character of a variable name. -/
def isNameStart (c : Char) : Bool :=
  ('A' ≤ c && c ≤ 'Z') || ('a' ≤ c && c ≤ 'z') || c = '_'

/-- `[A-Za-z0-9_]`, the remaining characters of a variable name. -/
def isNameChar (c : Char) : Bool :=
  isNameStart c || ('0' ≤ c && c ≤ '9')

/-- regex `\s` (ASCII whitespace). -/
def isWsChar (c : Char) : Bool :=
  c = ' ' || c = '\t' || c = '\n' || c = '\r' || c = '\x0b' || c = '\x0c'

/-- `[^:"'\s]`, a path character of FILE_WITH_FALLBACK_RE. -/
def isFilePathChar (c : Char) : Bool :=
  !(c = ':' || c = '"' || c = '\x27' || isWsChar c)

/-- `[^:\s"'`\]\)]`, a default character of FILE_WITH_FALLBACK_RE and a
path character of FILE_SIMPLE_RE. -/
def isFileTightChar (c : Char) : Bool :=
  !(c = ':' || isWsChar c || c = '"' || c = '\x27' || c = '\x60' || c = ']' || c = ')')

/-- The literal `file:` that anchors both file patterns. -/
def fileLit : List Char := ['f', 'i', 'l', 'e', ':']

/-- One attempted match of `\$\{([A-Za-z_][A-Za-z0-9_]*):([^}]*)\}` at the
head of the text: yields `((full match, name, default), rest)`. -/
def matchEnvFallbackAt (s : List Char) : Option ((List Char × List Char × List Char) × List Char) :=
  match s with
  | a :: b :: c :: cs =>
    if a = '$' ∧ b = '{' ∧ isNameStart c = true then
      let name := c :: cs.takeWhile isNameChar
      match cs.dropWhile isNameChar with
      | d :: r2 =>
        if d = ':' then
          let dflt := r2.takeWhile (fun x => x ≠ '}')
          match r2.dropWhile (fun x => x ≠ '}') with
          | e :: r4 =>
            if e = '}' then
              some ((['$', '{'] ++ name ++ [':'] ++ dflt ++ ['}'], name, dflt), r4)
            else none
          | [] => none
        else none
      | [] => none
    else none
  | _ => none

/-- One attempted match of `\$\{([A-Za-z_][A-Za-z0-9_]*)\}` at the head:
yields `((full match, name), rest)`. -/
def matchEnvBracedAt (s : List Char) : Option ((List Char × List Char) × List Char) :=
  match s with
  | a :: b :: c :: cs =>
    if a = '$' ∧ b = '{' ∧ isNameStart c = true then
      let name := c :: cs.takeWhile isNameChar
      match cs.dropWhile isNameChar with
      | d :: r2 =>
        if d = '}' then some ((['$', '{'] ++ name ++ ['}'], name), r2) else none
      | [] => none
    else none
  | _ => none

/-- One attempted match of `file:([^:"'\s]+):([^:\s"'`\]\)]+)` at the head:
yields `((full match, path, default), rest)`. -/
def matchFileFallbackAt (s : List Char) : Option ((List Char × List Char × List Char) × List Char) :=
  if s.take 5 = fileLit then
    match (s.drop 5).dropWhile isFilePathChar with
    | d :: r2 =>
      if d = ':' ∧ (s.drop 5).takeWhile isFilePathChar ≠ [] then
        if r2.takeWhile isFileTightChar ≠ [] then
          some ((fileLit ++ (s.drop 5).takeWhile isFilePathChar ++ [':'] ++
              r2.takeWhile isFileTightChar,
              (s.drop 5).takeWhile isFilePathChar, r2.takeWhile isFileTightChar),
            r2.dropWhile isFileTightChar)
        else none
      else none
    | [] => none
  else none

/-- One attempted match of `file:([^:\s"'`\]\)]+)` at the head:
yields `((full match, path), rest)`. -/
def matchFileSimpleAt (s : List Char) : Option ((List Char × List Char) × List Char) :=
  if s.take 5 = fileLit then
    if (s.drop 5).takeWhile isFileTightChar ≠ [] then
      some ((fileLit ++ (s.drop 5).takeWhile isFileTightChar,
          (s.drop 5).takeWhile isFileTightChar),
        (s.drop 5).dropWhile isFileTightChar)
    else none
  else none

theorem length_dropWhile_le {α : Type} (p : α → Bool) (l : List α) :
    (l.dropWhile p).length ≤ l.length := by
  induction l with
  | nil => simp [List.dropWhile]
  | cons c cs ih =>
    by_cases h : p c
    · simp only [List.dropWhile, h]
      exact ih.trans (by simp)
    · simp [List.dropWhile, h]

theorem matchEnvFallbackAt_shrinks (s : List Char)
    (a : List Char × List Char × List Char) (r : List Char)
    (h : matchEnvFallbackAt s = some (a, r)) : r.length < s.length := by
  rcases s with _ | ⟨a0, s⟩
  · simp [matchEnvFallbackAt] at h
  rcases s with _ | ⟨a1, s⟩
  · simp [matchEnvFallbackAt] at h
  rcases s with _ | ⟨a2, cs⟩
  · simp [matchEnvFallbackAt] at h
  simp only [matchEnvFallbackAt] at h
  split at h
  case isFalse => cases h
  split at h
  case h_2 => cases h
  case h_1 d r2 hd =>
    split at h
    case isFalse => cases h
    split at h
    case h_2 => cases h
    case h_1 e r4 hd2 =>
      split at h
      case isFalse => cases h
      have hr : r = r4 := (congrArg Prod.snd (Option.some.inj h)).symm
      rw [hr]
      have h1 : r4.length < r2.length := by
        have hle := length_dropWhile_le (fun x => decide (x ≠ '}')) r2
        rw [hd2] at hle; simp at hle; omega
      have h2 : r2.length < cs.length + 1 := by
        have hle := length_dropWhile_le isNameChar cs
        rw [hd] at hle; simp at hle; omega
      simp; omega

theorem matchEnvBracedAt_shrinks (s : List Char)
    (a : List Char × List Char) (r : List Char)
    (h : matchEnvBracedAt s = some (a, r)) : r.length < s.length := by
  rcases s with _ | ⟨a0, s⟩
  · simp [matchEnvBracedAt] at h
  rcases s with _ | ⟨a1, s⟩
  · simp [matchEnvBracedAt] at h
  rcases s with _ | ⟨a2, cs⟩
  · simp [matchEnvBracedAt] at h
  simp only [matchEnvBracedAt] at h
  split at h
  case isFalse => cases h
  split at h
  case h_2 => cases h
  case h_1 d r2 hd =>
    split at h
    case isFalse => cases h
    have hr : r = r2 := (congrArg Prod.snd (Option.some.inj h)).symm
    rw [hr]
    have h2 : r2.length < cs.length + 1 := by
      have hle := length_dropWhile_le isNameChar cs
      rw [hd] at hle; simp at hle; omega
    simp; omega

theorem matchFileFallbackAt_shrinks (s : List Char)
    (a : List Char × List Char × List Char) (r : List Char)
    (h : matchFileFallbackAt s = some (a, r)) : r.length < s.length := by
  rw [matchFileFallbackAt] at h
  split at h
  case isTrue htake =>
    have h5 : 5 ≤ s.length := by
      have := congrArg List.length htake
      simp [List.length_take, fileLit] at this
      omega
    have hdroplen : (s.drop 5).length = s.length - 5 := List.length_drop 5 s
    split at h
    case h_2 => cases h
    case h_1 d r2 hd =>
      split at h
      case isFalse => cases h
      split at h
      case isFalse => cases h
      have hr : r = r2.dropWhile isFileTightChar :=
        (congrArg Prod.snd (Option.some.inj h)).symm
      rw [hr]
      have h1 : (r2.dropWhile isFileTightChar).length ≤ r2.length :=
        length_dropWhile_le _ _
      have h2 : r2.length < (s.drop 5).length := by
        have hle := length_dropWhile_le isFilePathChar (s.drop 5)
        rw [hd] at hle; simp at hle; omega
      omega
  case isFalse => cases h

theorem matchFileSimpleAt_shrinks (s : List Char)
    (a : List Char × List Char) (r : List Char)
    (h : matchFileSimpleAt s = some (a, r)) : r.length < s.length := by
  rw [matchFileSimpleAt] at h
  split at h
  case isTrue htake =>
    have h5 : 5 ≤ s.length := by
      have := congrArg List.length htake
      simp [List.length_take, fileLit] at this
      omega
    have hdroplen : (s.drop 5).length = s.length - 5 := List.length_drop 5 s
    split at h
    case isFalse => cases h
    have hr : r = (s.drop 5).dropWhile isFileTightChar :=
      (congrArg Prod.snd (Option.some.inj h)).symm
    rw [hr]
    have h1 : ((s.drop 5).dropWhile isFileTightChar).length ≤ (s.drop 5).length :=
      length_dropWhile_le _ _
    omega
  case isFalse => cases h

set_option linter.unusedVariables false in
/-- `Regex::captures_iter`: walk the text, at each position try the matcher;
on a match emit its captures and resume after the match, otherwise advance
one character.  `hm` records that every match consumes at least one
character, which all four matchers above do. -/
def scanGo {α : Type} (m : List Char → Option (α × List Char))
    (hm : ∀ s a r, m s = some (a, r) → r.length < s.length) :
    List Char → List α
  | [] => []
  | c :: cs =>
    match hmatch : m (c :: cs) with
    | some (a, rest) => a :: scanGo m hm rest
    | none => scanGo m hm cs
termination_by s => s.length
decreasing_by
  · exact hm _ _ _ hmatch
  · simp

def scanEnvFallback (s : List Char) : List (List Char × List Char × List Char) :=
  scanGo matchEnvFallbackAt matchEnvFallbackAt_shrinks s

def scanEnvBraced (s : List Char) : List (List Char × List Char) :=
  scanGo matchEnvBracedAt matchEnvBracedAt_shrinks s

def scanFileFallback (s : List Char) : List (List Char × List Char × List Char) :=
  scanGo matchFileFallbackAt matchFileFallbackAt_shrinks s

def scanFileSimple (s : List Char) : List (List Char × List Char) :=
  scanGo matchFileSimpleAt matchFileSimpleAt_shrinks s

/-- `str::replace`: replace every non-overlapping occurrence of `pat`,
left to right.  (`pat` is always a nonempty full regex match here; the
guard keeps the definition total.) -/
def replaceAll (pat r : List Char) : List Char → List Char
  | [] => []
  | c :: cs =>
    if pat ≠ [] ∧ pat.isPrefixOf (c :: cs) = true then
      r ++ replaceAll pat r ((c :: cs).drop pat.length)
    else c :: replaceAll pat r cs
termination_by s => s.length
decreasing_by
  · rename_i hcond
    have hlen : 1 ≤ pat.length := by
      rcases pat with _ | ⟨p, ps⟩
      · exact absurd rfl hcond.1
      · simp
    simp [List.length_drop]
    omega
  · simp

/-- Phase one, first scan (interpolation.rs:16-24): every
`${NAME:default}` capture of the original text is replaced by the
environment value of `NAME`, or by `default` verbatim when `NAME` is
unset.  This scan never fails. -/
def envFallbackPass (env : Env) (content : List Char) : List Char :=
  (scanEnvFallback content).foldl
    (fun result cap =>
      let replacement :=
        match envVar env (String.mk cap.2.1) with
        | some v => v.toList
        | none => cap.2.2
      replaceAll cap.1 replacement result)
    content

/-- Phase one, second scan (interpolation.rs:28-40): the `${NAME}` captures
of the text left by the first scan; an unset `NAME` aborts with an error
naming it (the `?` in the Rust loop). -/
def envBracedLoop (env : Env) :
    List (List Char × List Char) → List Char → Except String (List Char)
  | [], result => Except.ok result
  | (tok, name) :: rest, result =>
    match envVar env (String.mk name) with
    | none =>
      Except.error ("environment variable '" ++ String.mk name ++ "' not found")
    | some v => envBracedLoop env rest (replaceAll tok v.toList result)

/-- `Interpolator::interpolate_env_variables` (interpolation.rs:13-43). -/
def interpolateEnvVariables (env : Env) (content : String) : Except String String :=
  let afterFallback := envFallbackPass env content.toList
  (envBracedLoop env (scanEnvBraced afterFallback) afterFallback).map String.mk

/-- The filesystem collaborator: `Path::exists` and `fs::read_to_string`,
the latter yielding the file's UTF-8 content or the display of the
`io::Error`. -/
structure Fs where
  pathExists : String → Bool
  readToString : String → Except String String

/-- Hex digit used by the modelled TOML string encoder. -/
def hexDigit (n : Nat) : Char :=
  if n < 10 then Char.ofNat (48 + n) else Char.ofNat (55 + n)

/-- Model of the toml crate's rendering of `Value::String(s)` as a
double-quoted TOML basic string: quote, backslash and control characters
are escaped, everything else passes through. -/
def tomlEncodeChar (c : Char) : List Char :=
  if c = '\x08' then ['\\', 'b']
  else if c = '\t' then ['\\', 't']
  else if c = '\n' then ['\\', 'n']
  else if c = '\x0c' then ['\\', 'f']
  else if c = '\r' then ['\\', 'r']
  else if c = '"' then ['\\', '"']
  else if c = '\\' then ['\\', '\\']
  else if c.toNat < 0x20 || c.toNat = 0x7f then
    ['\\', 'u', hexDigit ((c.toNat / 4096) % 16), hexDigit ((c.toNat / 256) % 16),
      hexDigit ((c.toNat / 16) % 16), hexDigit (c.toNat % 16)]
  else [c]

/-- `Interpolator::escape_toml_string` (interpolation.rs:81-93): serialize
the content as a TOML string (modelled as the double-quoted basic-string
rendering) and strip the surrounding quotes. -/
def escapeTomlString (s : String) : String :=
  let tomlStr : List Char := '"' :: (s.toList.flatMap tomlEncodeChar ++ ['"'])
  match tomlStr with
  | q :: rest =>
    if q = '"' then
      if rest.getLast? = some '"' then String.mk rest.dropLast
      else String.mk tomlStr
    else String.mk tomlStr
  | [] => String.mk tomlStr

/-- Phase two, first scan (interpolation.rs:48-60): every
`file:PATH:default` capture is replaced by the escaped file content on a
successful read and by `default` verbatim on any read failure.  Never
fails. -/
def fileFallbackPass (fs : Fs) (content : List Char) : List Char :=
  (scanFileFallback content).foldl
    (fun result cap =>
      let replacement :=
        match fs.readToString (String.mk cap.2.1) with
        | Except.ok c => (escapeTomlString c).toList
        | Except.error _ => cap.2.2
      replaceAll cap.1 replacement result)
    content

/-- Phase two, second scan (interpolation.rs:62-76): the `file:PATH`
captures of the text left by the first scan; a failed read aborts with an
error naming the path and the underlying I/O error. -/
def fileSimpleLoop (fs : Fs) :
    List (List Char × List Char) → List Char → Except String (List Char)
  | [], result => Except.ok result
  | (tok, path) :: rest, result =>
    match fs.readToString (String.mk path) with
    | Except.error e =>
      Except.error ("Failed to read file '" ++ String.mk path ++ "': " ++ e)
    | Except.ok c =>
      fileSimpleLoop fs rest (replaceAll tok (escapeTomlString c).toList result)

/-- `Interpolator::interpolate_files` (interpolation.rs:45-79). -/
def interpolateFiles (fs : Fs) (content : String) : Except String String :=
  let afterFallback := fileFallbackPass fs content.toList
  (fileSimpleLoop fs (scanFileSimple afterFallback) afterFallback).map String.mk

/-- `Interpolator::interpolate` (interpolation.rs:8-11): the environment
phase first, over the original text; then the file phase over its result. -/
def interpolate (env : Env) (fs : Fs) (content : String) : Except String String :=
  (interpolateEnvVariables env content).bind (interpolateFiles fs)

/-! ### Generic facts about the scanner and `replaceAll` -/

theorem scanGo_nil {α : Type} (m : List Char → Option (α × List Char))
    (hm : ∀ s a r, m s = some (a, r) → r.length < s.length) :
    scanGo m hm [] = [] := by
  rw [scanGo]

theorem scanGo_cons_some {α : Type} (m : List Char → Option (α × List Char))
    (hm : ∀ s a r, m s = some (a, r) → r.length < s.length)
    (c : Char) (cs : List Char) (a : α) (rest : List Char)
    (h : m (c :: cs) = some (a, rest)) :
    scanGo m hm (c :: cs) = a :: scanGo m hm rest := by
  rw [scanGo]
  split
  next a' rest' heq =>
    cases h.symm.trans heq
    rfl
  next heq => cases h.symm.trans heq

theorem scanGo_cons_none {α : Type} (m : List Char → Option (α × List Char))
    (hm : ∀ s a r, m s = some (a, r) → r.length < s.length)
    (c : Char) (cs : List Char) (h : m (c :: cs) = none) :
    scanGo m hm (c :: cs) = scanGo m hm cs := by
  rw [scanGo]
  split
  next a' rest' heq => cases h.symm.trans heq
  next => rfl

theorem scanGo_eq_nil {α : Type} (m : List Char → Option (α × List Char))
    (hm : ∀ s a r, m s = some (a, r) → r.length < s.length)
    (s : List Char) (h : ∀ t, t <:+ s → m t = none) : scanGo m hm s = [] := by
  induction s with
  | nil => exact scanGo_nil m hm
  | cons c cs ih =>
    rw [scanGo_cons_none m hm c cs (h _ (List.suffix_refl _))]
    exact ih (fun t ht => h t (ht.trans (List.suffix_cons c cs)))

theorem scanGo_append_skip {α : Type} (m : List Char → Option (α × List Char))
    (hm : ∀ s a r, m s = some (a, r) → r.length < s.length)
    (pre x : List Char) (h : ∀ c ∈ pre, ∀ t, m (c :: t) = none) :
    scanGo m hm (pre ++ x) = scanGo m hm x := by
  induction pre with
  | nil => rfl
  | cons c pre' ih =>
    rw [List.cons_append, scanGo_cons_none m hm c (pre' ++ x) (h c (by simp) _)]
    exact ih (fun c' hc' => h c' (by simp [hc']))

theorem takeWhile_append_all (p : Char → Bool) (a b : List Char)
    (h : ∀ c ∈ a, p c = true) :
    (a ++ b).takeWhile p = a ++ b.takeWhile p := by
  induction a with
  | nil => rfl
  | cons c a' ih =>
    rw [List.cons_append, List.takeWhile_cons_of_pos (h c (by simp)), ih,
      List.cons_append]
    exact fun c' hc' => h c' (by simp [hc'])

theorem dropWhile_append_all (p : Char → Bool) (a b : List Char)
    (h : ∀ c ∈ a, p c = true) :
    (a ++ b).dropWhile p = b.dropWhile p := by
  induction a with
  | nil => rfl
  | cons c a' ih =>
    rw [List.cons_append, List.dropWhile_cons_of_pos (h c (by simp)), ih]
    exact fun c' hc' => h c' (by simp [hc'])

theorem takeWhile_all (p : Char → Bool) (a : List Char)
    (h : ∀ c ∈ a, p c = true) : a.takeWhile p = a := by
  have := takeWhile_append_all p a [] h
  simpa using this

theorem dropWhile_all (p : Char → Bool) (a : List Char)
    (h : ∀ c ∈ a, p c = true) : a.dropWhile p = [] := by
  have := dropWhile_append_all p a [] h
  simpa using this

theorem isPrefixOf_append_self (a b : List Char) : a.isPrefixOf (a ++ b) = true := by
  induction a with
  | nil => simp [List.isPrefixOf]
  | cons c a' ih => simp [List.isPrefixOf, ih]

theorem head_eq_of_isPrefixOf (p : Char) (ps : List Char) (t : List Char)
    (h : (p :: ps).isPrefixOf t = true) : t.head? = some p := by
  cases t with
  | nil => simp [List.isPrefixOf] at h
  | cons x xs =>
    simp only [List.isPrefixOf, Bool.and_eq_true, beq_iff_eq] at h
    simp [h.1]

theorem mem_of_head_eq (c : Char) (l : List Char) (h : l.head? = some c) : c ∈ l := by
  cases l with
  | nil => cases h
  | cons x xs =>
    simp only [List.head?] at h
    cases h
    simp

theorem isPrefixOf_length (a b : List Char) (h : a.isPrefixOf b = true) :
    a.length ≤ b.length := by
  induction a generalizing b with
  | nil => simp
  | cons c a' ih =>
    cases b with
    | nil => simp [List.isPrefixOf] at h
    | cons x xs =>
      simp only [List.isPrefixOf, Bool.and_eq_true] at h
      have := ih xs h.2
      simp
      omega

theorem drop_length_append (a b : List Char) : (a ++ b).drop a.length = b := by
  induction a with
  | nil => rfl
  | cons c a' ih => simp [ih]

theorem drop_length_add_append (a b : List Char) (n : Nat) :
    (a ++ b).drop (a.length + n) = b.drop n := by
  induction a with
  | nil => simp
  | cons c a' ih =>
    simp only [List.cons_append, List.length_cons]
    rw [Nat.succ_add, List.drop_succ_cons]
    exact ih

/-- If the pattern matches at no position, `replaceAll` is the identity. -/
theorem replaceAll_id (pat r s : List Char)
    (h : ∀ n, ¬ pat.isPrefixOf (s.drop n) = true) :
    replaceAll pat r s = s := by
  induction s with
  | nil => rw [replaceAll]
  | cons c cs ih =>
    rw [replaceAll, if_neg, ih]
    · intro n
      exact h (n + 1)
    · rintro ⟨hne, hpre⟩
      exact h 0 (by simpa using hpre)

/-- If the pattern occurs only at the canonical position, `replaceAll`
splices the replacement there and leaves everything else alone. -/
theorem replaceAll_single (pre pat post r : List Char) (hpat : pat ≠ [])
    (huniq : ∀ n, pat.isPrefixOf ((pre ++ (pat ++ post)).drop n) = true →
      n = pre.length) :
    replaceAll pat r (pre ++ (pat ++ post)) = pre ++ (r ++ post) := by
  induction pre with
  | nil =>
    rcases pat with _ | ⟨p, ps⟩
    · exact absurd rfl hpat
    simp only [List.nil_append]
    rw [List.cons_append, replaceAll, ← List.cons_append,
      if_pos ⟨hpat, isPrefixOf_append_self (p :: ps) post⟩,
      drop_length_append (p :: ps) post]
    rw [replaceAll_id]
    intro n hpre
    have := huniq ((p :: ps).length + n) (by
      rw [List.nil_append, drop_length_add_append]
      exact hpre)
    simp at this
  | cons c pre' ih =>
    rw [List.cons_append, replaceAll, if_neg]
    · rw [ih (fun n hn => by
        have := huniq (n + 1) (by simpa using hn)
        simpa using this)]
      simp
    · rintro ⟨hne, hpre⟩
      have := huniq 0 (by simpa using hpre)
      simp at this

/-- Replacing the pattern inside exactly the pattern gives the
replacement. -/
theorem replaceAll_self (pat r : List Char) (hpat : pat ≠ []) :
    replaceAll pat r pat = r := by
  rcases pat with _ | ⟨p, ps⟩
  · exact absurd rfl hpat
  rw [replaceAll, if_pos ⟨hpat, by
    have h := isPrefixOf_append_self (p :: ps) []
    rwa [List.append_nil] at h⟩]
  rw [show (p :: ps).drop (p :: ps).length = [] from List.drop_length _]
  rw [replaceAll]
  simp

/-- A pattern headed by an anchor character that appears nowhere else can
match only at the canonical position. -/
theorem anchor_unique (pre post : List Char) (p : Char) (ps : List Char)
    (hpre : ∀ c ∈ pre, c ≠ p) (htail : ∀ c ∈ ps, c ≠ p)
    (hpost : ∀ c ∈ post, c ≠ p) :
    ∀ n, (p :: ps).isPrefixOf ((pre ++ ((p :: ps) ++ post)).drop n) = true →
      n = pre.length := by
  induction pre with
  | nil =>
    intro n hn
    cases n with
    | zero => rfl
    | succ m =>
      exfalso
      simp only [List.nil_append, List.cons_append, List.drop_succ_cons] at hn
      have hhead := head_eq_of_isPrefixOf p ps _ hn
      have hmem : p ∈ (ps ++ post).drop m := mem_of_head_eq p _ hhead
      have : p ∈ ps ++ post := List.drop_subset m _ hmem
      rcases List.mem_append.mp this with h | h
      · exact htail p h rfl
      · exact hpost p h rfl
  | cons c pre' ih =>
    intro n hn
    cases n with
    | zero =>
      exfalso
      simp only [List.drop_zero, List.cons_append] at hn
      have := head_eq_of_isPrefixOf p ps _ hn
      simp only [List.head?] at this
      cases this
      exact hpre p (by simp) rfl
    | succ m =>
      have := ih (fun c' hc' => hpre c' (by simp [hc'])) m (by simpa using hn)
      simp [this]

/-! ### Token-shape facts about the four matchers -/

/-- No `'$'` occurs in the text. -/
def noDollar (s : List Char) : Prop := ∀ c ∈ s, c ≠ '$'

instance (s : List Char) : Decidable (noDollar s) := by
  unfold noDollar; infer_instance

/-- A well-formed variable name: `[A-Za-z_][A-Za-z0-9_]*`. -/
def validName : List Char → Prop
  | [] => False
  | c :: cs => isNameStart c = true ∧ ∀ x ∈ cs, isNameChar x = true

instance : (s : List Char) → Decidable (validName s)
  | [] => isFalse (fun h => h)
  | _ :: _ => inferInstanceAs (Decidable (_ ∧ _))

theorem isNameChar_of_isNameStart (c : Char) (h : isNameStart c = true) :
    isNameChar c = true := by
  simp [isNameChar, h]

theorem ne_dollar_of_isNameStart (c : Char) (h : isNameStart c = true) : c ≠ '$' := by
  intro hc
  subst hc
  exact absurd h (by decide)

theorem ne_dollar_of_isNameChar (c : Char) (h : isNameChar c = true) : c ≠ '$' := by
  intro hc
  subst hc
  exact absurd h (by decide)

theorem ne_colon_of_isFileTightChar (c : Char) (h : isFileTightChar c = true) :
    c ≠ ':' := by
  intro hc
  subst hc
  exact absurd h (by decide)

theorem ne_colon_of_isFilePathChar (c : Char) (h : isFilePathChar c = true) :
    c ≠ ':' := by
  intro hc
  subst hc
  exact absurd h (by decide)

theorem isFilePathChar_of_isFileTightChar (c : Char) (h : isFileTightChar c = true) :
    isFilePathChar c = true := by
  simp only [isFileTightChar, Bool.not_eq_true', Bool.or_eq_false_iff,
    decide_eq_false_iff_not] at h
  simp only [isFilePathChar, Bool.not_eq_true', Bool.or_eq_false_iff,
    decide_eq_false_iff_not]
  tauto

theorem matchEnvFallbackAt_none_of_no_open (c : Char) (cs : List Char)
    (h : ¬(c = '$' ∧ cs.head? = some '{')) : matchEnvFallbackAt (c :: cs) = none := by
  rcases cs with _ | ⟨b, cs'⟩
  · rfl
  rcases cs' with _ | ⟨d, cs''⟩
  · rfl
  rw [matchEnvFallbackAt, if_neg]
  rintro ⟨h1, h2, _⟩
  exact h ⟨h1, by simp [h2]⟩

theorem matchEnvBracedAt_none_of_no_open (c : Char) (cs : List Char)
    (h : ¬(c = '$' ∧ cs.head? = some '{')) : matchEnvBracedAt (c :: cs) = none := by
  rcases cs with _ | ⟨b, cs'⟩
  · rfl
  rcases cs' with _ | ⟨d, cs''⟩
  · rfl
  rw [matchEnvBracedAt, if_neg]
  rintro ⟨h1, h2, _⟩
  exact h ⟨h1, by simp [h2]⟩

/-- A braced token without fallback is not a fallback match: after the
name the pattern requires `':'` but finds `'}'`. -/
theorem matchEnvFallbackAt_none_of_braced (name post : List Char)
    (hname : validName name) :
    matchEnvFallbackAt ('$' :: '{' :: (name ++ '}' :: post)) = none := by
  rcases name with _ | ⟨n, ns⟩
  · cases hname
  rw [List.cons_append]
  rw [matchEnvFallbackAt, if_pos ⟨rfl, rfl, hname.1⟩]
  rw [dropWhile_append_all _ _ _ hname.2, List.dropWhile_cons_of_neg (by decide)]
  simp

/-- The canonical fallback-token match. -/
theorem matchEnvFallbackAt_token (name dflt post : List Char)
    (hname : validName name) (hdflt : ∀ c ∈ dflt, c ≠ '}') :
    matchEnvFallbackAt ('$' :: '{' :: (name ++ ':' :: (dflt ++ '}' :: post))) =
      some (('$' :: '{' :: (name ++ ':' :: (dflt ++ ['}'])), name, dflt), post) := by
  rcases name with _ | ⟨n, ns⟩
  · cases hname
  rw [List.cons_append]
  rw [matchEnvFallbackAt, if_pos ⟨rfl, rfl, hname.1⟩]
  have hdf : ∀ c ∈ dflt, decide (c ≠ '}') = true :=
    fun c hc => decide_eq_true (hdflt c hc)
  have ht1 : List.takeWhile isNameChar (ns ++ ':' :: (dflt ++ '}' :: post)) = ns := by
    rw [takeWhile_append_all _ _ _ hname.2, List.takeWhile_cons_of_neg (by decide),
      List.append_nil]
  have hd1 : List.dropWhile isNameChar (ns ++ ':' :: (dflt ++ '}' :: post)) =
      ':' :: (dflt ++ '}' :: post) := by
    rw [dropWhile_append_all _ _ _ hname.2, List.dropWhile_cons_of_neg (by decide)]
  rw [ht1, hd1]
  dsimp only
  rw [if_pos rfl]
  have ht2 : List.takeWhile (fun x : Char => x ≠ '}') (dflt ++ '}' :: post) = dflt := by
    rw [takeWhile_append_all _ _ _ hdf, List.takeWhile_cons_of_neg (by decide),
      List.append_nil]
  have hd2 : List.dropWhile (fun x : Char => x ≠ '}') (dflt ++ '}' :: post) =
      '}' :: post := by
    rw [dropWhile_append_all _ _ _ hdf, List.dropWhile_cons_of_neg (by decide)]
  rw [ht2, hd2]
  dsimp only
  rw [if_pos rfl]
  simp

/-- The canonical braced-token match. -/
theorem matchEnvBracedAt_token (name post : List Char) (hname : validName name) :
    matchEnvBracedAt ('$' :: '{' :: (name ++ '}' :: post)) =
      some (('$' :: '{' :: (name ++ ['}']), name), post) := by
  rcases name with _ | ⟨n, ns⟩
  · cases hname
  rw [List.cons_append]
  rw [matchEnvBracedAt, if_pos ⟨rfl, rfl, hname.1⟩]
  rw [takeWhile_append_all _ _ _ hname.2, dropWhile_append_all _ _ _ hname.2]
  rw [List.takeWhile_cons_of_neg (by decide), List.dropWhile_cons_of_neg (by decide)]
  simp

theorem matchFileFallbackAt_none_of_head (c : Char) (cs : List Char) (h : c ≠ 'f') :
    matchFileFallbackAt (c :: cs) = none := by
  rw [matchFileFallbackAt, if_neg]
  intro hc
  apply h
  have := congrArg List.head? hc
  simpa [fileLit] using this

theorem matchFileSimpleAt_none_of_head (c : Char) (cs : List Char) (h : c ≠ 'f') :
    matchFileSimpleAt (c :: cs) = none := by
  rw [matchFileSimpleAt, if_neg]
  intro hc
  apply h
  have := congrArg List.head? hc
  simpa [fileLit] using this

theorem matchFileFallbackAt_none_of_no_colon (s : List Char)
    (h : ∀ c ∈ s, c ≠ ':') : matchFileFallbackAt s = none := by
  rw [matchFileFallbackAt, if_neg]
  intro hc
  have hmem : ':' ∈ s.take 5 := by
    rw [hc]
    simp [fileLit]
  exact h ':' (List.take_subset 5 s hmem) rfl

theorem matchFileSimpleAt_none_of_no_colon (s : List Char)
    (h : ∀ c ∈ s, c ≠ ':') : matchFileSimpleAt s = none := by
  rw [matchFileSimpleAt, if_neg]
  intro hc
  have hmem : ':' ∈ s.take 5 := by
    rw [hc]
    simp [fileLit]
  exact h ':' (List.take_subset 5 s hmem) rfl

/-- A simple `file:PATH` token (no second colon) is not a fallback match:
after the path the pattern requires `':'` but the text ends. -/
theorem matchFileFallbackAt_none_of_simple (path : List Char)
    (hpath : ∀ c ∈ path, isFileTightChar c = true) :
    matchFileFallbackAt (fileLit ++ path) = none := by
  rw [matchFileFallbackAt, if_pos (by simp [fileLit])]
  rw [show (fileLit ++ path).drop 5 = path from by simp [fileLit]]
  rw [dropWhile_all _ _ (fun c hc => isFilePathChar_of_isFileTightChar c (hpath c hc))]

/-- The canonical fallback `file:PATH:default` match. -/
theorem matchFileFallbackAt_token (path dflt : List Char)
    (hpath : ∀ c ∈ path, isFilePathChar c = true) (hpne : path ≠ [])
    (hdflt : ∀ c ∈ dflt, isFileTightChar c = true) (hdne : dflt ≠ []) :
    matchFileFallbackAt (fileLit ++ path ++ ':' :: dflt) =
      some ((fileLit ++ path ++ [':'] ++ dflt, path, dflt), []) := by
  rw [show (fileLit ++ path ++ ':' :: dflt : List Char)
      = fileLit ++ (path ++ ':' :: dflt) from by simp]
  rw [matchFileFallbackAt, if_pos (by simp [fileLit])]
  rw [show (fileLit ++ (path ++ ':' :: dflt)).drop 5 = path ++ ':' :: dflt from by
    simp [fileLit]]
  have ht1 : List.takeWhile isFilePathChar (path ++ ':' :: dflt) = path := by
    rw [takeWhile_append_all _ _ _ hpath, List.takeWhile_cons_of_neg (by decide),
      List.append_nil]
  have hd1 : List.dropWhile isFilePathChar (path ++ ':' :: dflt) = ':' :: dflt := by
    rw [dropWhile_append_all _ _ _ hpath, List.dropWhile_cons_of_neg (by decide)]
  rw [ht1, hd1]
  dsimp only
  rw [if_pos ⟨rfl, hpne⟩]
  rw [takeWhile_all _ _ hdflt, dropWhile_all _ _ hdflt, if_pos hdne]

/-- The canonical simple `file:PATH` match. -/
theorem matchFileSimpleAt_token (path : List Char)
    (hpath : ∀ c ∈ path, isFileTightChar c = true) (hpne : path ≠ []) :
    matchFileSimpleAt (fileLit ++ path) =
      some ((fileLit ++ path, path), []) := by
  rw [matchFileSimpleAt, if_pos (by simp [fileLit])]
  rw [show (fileLit ++ path).drop 5 = path from by simp [fileLit]]
  rw [takeWhile_all _ _ hpath, dropWhile_all _ _ hpath, if_pos hpne]

/-! ### Whole-scan and whole-pass lemmas, environment phase -/

theorem noDollar_of_validName (name : List Char) (h : validName name) :
    noDollar name := by
  rcases name with _ | ⟨n, ns⟩
  · cases h
  intro c hc
  rcases List.mem_cons.mp hc with rfl | hc'
  · exact ne_dollar_of_isNameStart c h.1
  · exact ne_dollar_of_isNameChar c (h.2 c hc')

theorem noDollar_append (a b : List Char) (ha : noDollar a) (hb : noDollar b) :
    noDollar (a ++ b) := by
  intro c hc
  rcases List.mem_append.mp hc with h | h
  · exact ha c h
  · exact hb c h

theorem mk_toList (s : String) : String.mk s.toList = s := rfl

theorem scanEnvFallback_nil_of_noDollar (s : List Char) (h : noDollar s) :
    scanEnvFallback s = [] := by
  apply scanGo_eq_nil
  intro t ht
  rcases t with _ | ⟨c, cs⟩
  · rfl
  · exact matchEnvFallbackAt_none_of_no_open c cs
      (fun hc => h c (ht.subset (by simp)) hc.1)

theorem scanEnvBraced_nil_of_noDollar (s : List Char) (h : noDollar s) :
    scanEnvBraced s = [] := by
  apply scanGo_eq_nil
  intro t ht
  rcases t with _ | ⟨c, cs⟩
  · rfl
  · exact matchEnvBracedAt_none_of_no_open c cs
      (fun hc => h c (ht.subset (by simp)) hc.1)

theorem scanEnvFallback_single (pre name dflt post : List Char)
    (hpre : noDollar pre) (hpost : noDollar post) (hname : validName name)
    (hdflt : ∀ c ∈ dflt, c ≠ '}') :
    scanEnvFallback (pre ++ ('$' :: '{' :: (name ++ ':' :: (dflt ++ '}' :: post)))) =
      [('$' :: '{' :: (name ++ ':' :: (dflt ++ ['}'])), name, dflt)] := by
  rw [scanEnvFallback, scanGo_append_skip _ _ pre _ (fun c hc t =>
    matchEnvFallbackAt_none_of_no_open c t (fun h' => hpre c hc h'.1))]
  rw [scanGo_cons_some _ _ _ _ _ _ (matchEnvFallbackAt_token name dflt post hname hdflt)]
  rw [show scanGo matchEnvFallbackAt matchEnvFallbackAt_shrinks post = [] from
    scanEnvFallback_nil_of_noDollar post hpost]

/-- A braced token contributes no fallback match anywhere. -/
theorem scanEnvFallback_nil_of_braced (pre name post : List Char)
    (hpre : noDollar pre) (hpost : noDollar post) (hname : validName name) :
    scanEnvFallback (pre ++ ('$' :: '{' :: (name ++ '}' :: post))) = [] := by
  rw [scanEnvFallback, scanGo_append_skip _ _ pre _ (fun c hc t =>
    matchEnvFallbackAt_none_of_no_open c t (fun h' => hpre c hc h'.1))]
  rw [scanGo_cons_none _ _ _ _ (matchEnvFallbackAt_none_of_braced name post hname)]
  have hnd : noDollar ('{' :: (name ++ '}' :: post)) := by
    intro c hc
    rcases List.mem_cons.mp hc with rfl | hc'
    · decide
    rcases List.mem_append.mp hc' with h | h
    · exact noDollar_of_validName name hname c h
    rcases List.mem_cons.mp h with rfl | h'
    · decide
    · exact hpost c h'
  exact scanEnvFallback_nil_of_noDollar _ hnd

theorem scanEnvBraced_single (pre name post : List Char)
    (hpre : noDollar pre) (hpost : noDollar post) (hname : validName name) :
    scanEnvBraced (pre ++ ('$' :: '{' :: (name ++ '}' :: post))) =
      [('$' :: '{' :: (name ++ ['}']), name)] := by
  rw [scanEnvBraced, scanGo_append_skip _ _ pre _ (fun c hc t =>
    matchEnvBracedAt_none_of_no_open c t (fun h' => hpre c hc h'.1))]
  rw [scanGo_cons_some _ _ _ _ _ _ (matchEnvBracedAt_token name post hname)]
  rw [show scanGo matchEnvBracedAt matchEnvBracedAt_shrinks post = [] from
    scanEnvBraced_nil_of_noDollar post hpost]

/-- The fallback-token replacement performed by the fallback pass. -/
theorem envFallbackPass_single (env : Env) (pre name dflt post : List Char)
    (hpre : noDollar pre) (hpost : noDollar post) (hname : validName name)
    (hdflt : ∀ c ∈ dflt, c ≠ '}' ∧ c ≠ '$') :
    envFallbackPass env (pre ++ ('$' :: '{' :: (name ++ ':' :: (dflt ++ '}' :: post)))) =
      pre ++ ((match envVar env (String.mk name) with
        | some v => v.toList
        | none => dflt) ++ post) := by
  rw [envFallbackPass,
    scanEnvFallback_single pre name dflt post hpre hpost hname
      (fun c hc => (hdflt c hc).1)]
  simp only [List.foldl_cons, List.foldl_nil]
  have hassoc : (pre ++ ('$' :: '{' :: (name ++ ':' :: (dflt ++ '}' :: post))) : List Char)
      = pre ++ (('$' :: '{' :: (name ++ ':' :: (dflt ++ ['}']))) ++ post) := by simp
  rw [hassoc, replaceAll_single pre _ post _ (by simp)]
  have htail : ∀ c ∈ ('{' :: (name ++ ':' :: (dflt ++ ['}'])) : List Char), c ≠ '$' := by
    intro c hc
    rcases List.mem_cons.mp hc with rfl | hc'
    · decide
    rcases List.mem_append.mp hc' with h | h
    · exact noDollar_of_validName name hname c h
    rcases List.mem_cons.mp h with rfl | h'
    · decide
    rcases List.mem_append.mp h' with h2 | h2
    · exact (hdflt c h2).2
    · rcases List.mem_singleton.mp h2 with rfl
      decide
  exact anchor_unique pre post '$' _ hpre htail hpost

/-- Environment phase on a text holding one braced token (with `'$'`
nowhere else): the fallback scan leaves the text untouched, then the
braced scan resolves or fails on the token. -/
theorem interpolateEnvVariables_braced (env : Env) (pre name post : List Char)
    (hpre : noDollar pre) (hpost : noDollar post) (hname : validName name) :
    interpolateEnvVariables env
        (String.mk (pre ++ ('$' :: '{' :: (name ++ '}' :: post)))) =
      match envVar env (String.mk name) with
      | none =>
        Except.error ("environment variable '" ++ String.mk name ++ "' not found")
      | some v => Except.ok (String.mk (pre ++ (v.toList ++ post))) := by
  rw [interpolateEnvVariables]
  have hlist : (String.mk (pre ++ ('$' :: '{' :: (name ++ '}' :: post)))).toList
      = pre ++ ('$' :: '{' :: (name ++ '}' :: post)) := rfl
  rw [hlist, envFallbackPass, scanEnvFallback_nil_of_braced pre name post hpre hpost hname,
    List.foldl_nil, scanEnvBraced_single pre name post hpre hpost hname]
  rcases henv : envVar env (String.mk name) with _ | v
  · simp only [envBracedLoop, henv]
    rfl
  · simp only [envBracedLoop, henv]
    have hassoc : (pre ++ ('$' :: '{' :: (name ++ '}' :: post)) : List Char)
        = pre ++ (('$' :: '{' :: (name ++ ['}'])) ++ post) := by simp
    rw [hassoc, replaceAll_single pre _ post _ (by simp)]
    · simp [Except.map]
    · have htail : ∀ c ∈ ('{' :: (name ++ ['}']) : List Char), c ≠ '$' := by
        intro c hc
        rcases List.mem_cons.mp hc with rfl | hc'
        · decide
        rcases List.mem_append.mp hc' with h | h
        · exact noDollar_of_validName name hname c h
        · rcases List.mem_singleton.mp h with rfl
          decide
      exact anchor_unique pre post '$' _ hpre htail hpost

/-- Environment phase on a text holding one fallback token: never fails;
substitutes the environment value when set (here one without further
tokens of its own), else the default verbatim. -/
theorem interpolateEnvVariables_fallback (env : Env) (pre name dflt post : List Char)
    (hpre : noDollar pre) (hpost : noDollar post) (hname : validName name)
    (hdflt : ∀ c ∈ dflt, c ≠ '}' ∧ c ≠ '$')
    (hrepl : noDollar (match envVar env (String.mk name) with
      | some v => v.toList
      | none => dflt)) :
    interpolateEnvVariables env
        (String.mk (pre ++ ('$' :: '{' :: (name ++ ':' :: (dflt ++ '}' :: post))))) =
      Except.ok (String.mk (pre ++ ((match envVar env (String.mk name) with
        | some v => v.toList
        | none => dflt) ++ post))) := by
  rw [interpolateEnvVariables]
  have hlist :
      (String.mk (pre ++ ('$' :: '{' :: (name ++ ':' :: (dflt ++ '}' :: post))))).toList
      = pre ++ ('$' :: '{' :: (name ++ ':' :: (dflt ++ '}' :: post))) := rfl
  rw [hlist, envFallbackPass_single env pre name dflt post hpre hpost hname hdflt]
  rw [scanEnvBraced_nil_of_noDollar _
    (noDollar_append _ _ hpre (noDollar_append _ _ hrepl hpost))]
  rw [envBracedLoop]
  rfl


/-! ### Whole-scan and whole-pass lemmas, file phase -/

theorem scanFileFallback_token (path dflt : List Char)
    (hpath : ∀ c ∈ path, isFilePathChar c = true) (hpne : path ≠ [])
    (hdflt : ∀ c ∈ dflt, isFileTightChar c = true) (hdne : dflt ≠ []) :
    scanFileFallback (fileLit ++ path ++ ':' :: dflt) =
      [(fileLit ++ path ++ [':'] ++ dflt, path, dflt)] := by
  have heq : (fileLit ++ path ++ ':' :: dflt : List Char)
      = 'f' :: ('i' :: ('l' :: ('e' :: (':' :: (path ++ ':' :: dflt))))) := by
    simp [fileLit]
  rw [scanFileFallback, heq]
  rw [scanGo_cons_some _ _ _ _ _ _ (by
    rw [← heq]
    exact matchFileFallbackAt_token path dflt hpath hpne hdflt hdne)]
  rw [scanGo_nil]

theorem scanFileFallback_nil_of_simple (path : List Char)
    (hpath : ∀ c ∈ path, isFileTightChar c = true) :
    scanFileFallback (fileLit ++ path) = [] := by
  have heq : (fileLit ++ path : List Char)
      = 'f' :: ('i' :: ('l' :: ('e' :: (':' :: path)))) := by simp [fileLit]
  rw [scanFileFallback, heq]
  rw [scanGo_cons_none _ _ _ _ (by
    rw [← heq]
    exact matchFileFallbackAt_none_of_simple path hpath)]
  rw [show ('i' :: ('l' :: ('e' :: (':' :: path))) : List Char)
      = ['i', 'l', 'e', ':'] ++ path from rfl]
  rw [scanGo_append_skip _ _ _ path (fun c hc t =>
    matchFileFallbackAt_none_of_head c t (by
      simp at hc
      rcases hc with rfl | rfl | rfl | rfl <;> decide))]
  apply scanGo_eq_nil
  intro t ht
  exact matchFileFallbackAt_none_of_no_colon t
    (fun c hc => ne_colon_of_isFileTightChar c (hpath c (ht.subset hc)))

theorem scanFileSimple_token (path : List Char)
    (hpath : ∀ c ∈ path, isFileTightChar c = true) (hpne : path ≠ []) :
    scanFileSimple (fileLit ++ path) = [(fileLit ++ path, path)] := by
  have heq : (fileLit ++ path : List Char)
      = 'f' :: ('i' :: ('l' :: ('e' :: (':' :: path)))) := by simp [fileLit]
  rw [scanFileSimple, heq]
  rw [scanGo_cons_some _ _ _ _ _ _ (by
    rw [← heq]
    exact matchFileSimpleAt_token path hpath hpne)]
  rw [scanGo_nil, heq]

theorem scanFileSimple_nil_of_no_colon (s : List Char) (h : ∀ c ∈ s, c ≠ ':') :
    scanFileSimple s = [] := by
  apply scanGo_eq_nil
  intro t ht
  exact matchFileSimpleAt_none_of_no_colon t (fun c hc => h c (ht.subset hc))

/-- File phase on exactly one fallback token, successful read: the escaped
content (assumed free of further `':'`, hence of further `file:` tokens)
is substituted. -/
theorem interpolateFiles_fallback_ok (fs : Fs) (path dflt : List Char) (c : String)
    (hpath : ∀ ch ∈ path, isFilePathChar ch = true) (hpne : path ≠ [])
    (hdflt : ∀ ch ∈ dflt, isFileTightChar ch = true) (hdne : dflt ≠ [])
    (hread : fs.readToString (String.mk path) = Except.ok c)
    (hesc : ∀ ch ∈ (escapeTomlString c).toList, ch ≠ ':') :
    interpolateFiles fs (String.mk (fileLit ++ path ++ ':' :: dflt)) =
      Except.ok (escapeTomlString c) := by
  rw [interpolateFiles]
  have hlist : (String.mk (fileLit ++ path ++ ':' :: dflt)).toList
      = fileLit ++ path ++ ':' :: dflt := rfl
  rw [hlist, fileFallbackPass, scanFileFallback_token path dflt hpath hpne hdflt hdne]
  simp only [List.foldl_cons, List.foldl_nil, hread]
  rw [show (fileLit ++ path ++ ':' :: dflt : List Char)
      = fileLit ++ path ++ [':'] ++ dflt from by simp]
  rw [replaceAll_self _ _ (by simp [fileLit])]
  rw [scanFileSimple_nil_of_no_colon _ hesc, fileSimpleLoop]
  simp [Except.map, mk_toList]

/-- File phase on exactly one fallback token, failed read: the default is
substituted verbatim; never an error. -/
theorem interpolateFiles_fallback_err (fs : Fs) (path dflt : List Char) (e : String)
    (hpath : ∀ ch ∈ path, isFilePathChar ch = true) (hpne : path ≠ [])
    (hdflt : ∀ ch ∈ dflt, isFileTightChar ch = true) (hdne : dflt ≠ [])
    (hread : fs.readToString (String.mk path) = Except.error e) :
    interpolateFiles fs (String.mk (fileLit ++ path ++ ':' :: dflt)) =
      Except.ok (String.mk dflt) := by
  rw [interpolateFiles]
  have hlist : (String.mk (fileLit ++ path ++ ':' :: dflt)).toList
      = fileLit ++ path ++ ':' :: dflt := rfl
  rw [hlist, fileFallbackPass, scanFileFallback_token path dflt hpath hpne hdflt hdne]
  simp only [List.foldl_cons, List.foldl_nil, hread]
  rw [show (fileLit ++ path ++ ':' :: dflt : List Char)
      = fileLit ++ path ++ [':'] ++ dflt from by simp]
  rw [replaceAll_self _ _ (by simp [fileLit])]
  rw [scanFileSimple_nil_of_no_colon _
    (fun ch hc => ne_colon_of_isFileTightChar ch (hdflt ch hc)), fileSimpleLoop]
  rfl

/-- File phase on exactly one simple token, failed read: the whole phase
fails, surfacing the path and the I/O error. -/
theorem interpolateFiles_simple_err (fs : Fs) (path : List Char) (e : String)
    (hpath : ∀ ch ∈ path, isFileTightChar ch = true) (hpne : path ≠ [])
    (hread : fs.readToString (String.mk path) = Except.error e) :
    interpolateFiles fs (String.mk (fileLit ++ path)) =
      Except.error ("Failed to read file '" ++ String.mk path ++ "': " ++ e) := by
  rw [interpolateFiles]
  have hlist : (String.mk (fileLit ++ path)).toList = fileLit ++ path := rfl
  rw [hlist, fileFallbackPass, scanFileFallback_nil_of_simple path hpath,
    List.foldl_nil, scanFileSimple_token path hpath hpne]
  simp only [fileSimpleLoop, hread]
  rfl

/-- File phase on exactly one simple token, successful read: the escaped
content is substituted (the loop never rescans its own replacement). -/
theorem interpolateFiles_simple_ok (fs : Fs) (path : List Char) (c : String)
    (hpath : ∀ ch ∈ path, isFileTightChar ch = true) (hpne : path ≠ [])
    (hread : fs.readToString (String.mk path) = Except.ok c) :
    interpolateFiles fs (String.mk (fileLit ++ path)) =
      Except.ok (escapeTomlString c) := by
  rw [interpolateFiles]
  have hlist : (String.mk (fileLit ++ path)).toList = fileLit ++ path := rfl
  rw [hlist, fileFallbackPass, scanFileFallback_nil_of_simple path hpath,
    List.foldl_nil, scanFileSimple_token path hpath hpne]
  simp only [fileSimpleLoop, hread]
  rw [replaceAll_self _ _ (by simp [fileLit])]
  simp [Except.map, mk_toList]

/-! ### Texts containing no token at all pass through unchanged -/

/-- Whether `'$'` immediately followed by `'{'` occurs anywhere. -/
def hasDollarBrace : List Char → Bool
  | [] => false
  | [_] => false
  | a :: b :: rest => (a == '$' && b == '{') || hasDollarBrace (b :: rest)

/-- Whether `pat` occurs as a contiguous subsequence. -/
def occursSeq (pat : List Char) : List Char → Bool
  | [] => false
  | c :: cs => pat.isPrefixOf (c :: cs) || occursSeq pat cs

theorem hasDollarBrace_cons (c : Char) (cs : List Char)
    (h : hasDollarBrace (c :: cs) = false) :
    ¬(c = '$' ∧ cs.head? = some '{') ∧ hasDollarBrace cs = false := by
  cases cs with
  | nil => exact ⟨fun hc => (nomatch hc.2), rfl⟩
  | cons b rest =>
    rw [hasDollarBrace, Bool.or_eq_false_iff] at h
    refine ⟨fun hc => ?_, h.2⟩
    obtain ⟨rfl, hb⟩ := hc
    simp only [List.head?] at hb
    cases hb
    simp at h

theorem occursSeq_cons (pat : List Char) (c : Char) (cs : List Char)
    (h : occursSeq pat (c :: cs) = false) :
    pat.isPrefixOf (c :: cs) = false ∧ occursSeq pat cs = false := by
  rw [occursSeq, Bool.or_eq_false_iff] at h
  exact h

theorem isPrefixOf_iff_take (pat s : List Char) :
    pat.isPrefixOf s = true ↔ s.take pat.length = pat := by
  induction pat generalizing s with
  | nil => simp [List.isPrefixOf]
  | cons p ps ih =>
    cases s with
    | nil => simp [List.isPrefixOf]
    | cons x xs =>
      simp only [List.isPrefixOf, Bool.and_eq_true, beq_iff_eq, List.length_cons,
        List.take_succ_cons, List.cons.injEq, ih]
      constructor
      · rintro ⟨rfl, h⟩
        exact ⟨rfl, h⟩
      · rintro ⟨rfl, h⟩
        exact ⟨rfl, h⟩

theorem matchFileFallbackAt_none_of_not_fileLit (s : List Char)
    (h : fileLit.isPrefixOf s = false) : matchFileFallbackAt s = none := by
  rw [matchFileFallbackAt, if_neg]
  intro htake
  rw [(isPrefixOf_iff_take fileLit s).mpr htake] at h
  cases h

theorem matchFileSimpleAt_none_of_not_fileLit (s : List Char)
    (h : fileLit.isPrefixOf s = false) : matchFileSimpleAt s = none := by
  rw [matchFileSimpleAt, if_neg]
  intro htake
  rw [(isPrefixOf_iff_take fileLit s).mpr htake] at h
  cases h

theorem scanEnvFallback_nil_of_noDB (s : List Char)
    (h : hasDollarBrace s = false) : scanEnvFallback s = [] := by
  induction s with
  | nil => exact scanGo_nil _ _
  | cons c cs ih =>
    obtain ⟨h1, h2⟩ := hasDollarBrace_cons c cs h
    rw [scanEnvFallback, scanGo_cons_none _ _ _ _
      (matchEnvFallbackAt_none_of_no_open c cs h1)]
    exact ih h2

theorem scanEnvBraced_nil_of_noDB (s : List Char)
    (h : hasDollarBrace s = false) : scanEnvBraced s = [] := by
  induction s with
  | nil => exact scanGo_nil _ _
  | cons c cs ih =>
    obtain ⟨h1, h2⟩ := hasDollarBrace_cons c cs h
    rw [scanEnvBraced, scanGo_cons_none _ _ _ _
      (matchEnvBracedAt_none_of_no_open c cs h1)]
    exact ih h2

theorem scanFileFallback_nil_of_noOccurs (s : List Char)
    (h : occursSeq fileLit s = false) : scanFileFallback s = [] := by
  induction s with
  | nil => exact scanGo_nil _ _
  | cons c cs ih =>
    obtain ⟨h1, h2⟩ := occursSeq_cons fileLit c cs h
    rw [scanFileFallback, scanGo_cons_none _ _ _ _
      (matchFileFallbackAt_none_of_not_fileLit _ h1)]
    exact ih h2

theorem scanFileSimple_nil_of_noOccurs (s : List Char)
    (h : occursSeq fileLit s = false) : scanFileSimple s = [] := by
  induction s with
  | nil => exact scanGo_nil _ _
  | cons c cs ih =>
    obtain ⟨h1, h2⟩ := occursSeq_cons fileLit c cs h
    rw [scanFileSimple, scanGo_cons_none _ _ _ _
      (matchFileSimpleAt_none_of_not_fileLit _ h1)]
    exact ih h2

/-- The environment phase is the identity on texts with no `${` at all. -/
theorem interpolateEnvVariables_id (env : Env) (s : String)
    (h : hasDollarBrace s.toList = false) :
    interpolateEnvVariables env s = Except.ok s := by
  rw [interpolateEnvVariables, envFallbackPass, scanEnvFallback_nil_of_noDB _ h,
    List.foldl_nil, scanEnvBraced_nil_of_noDB _ h, envBracedLoop]
  simp [Except.map, mk_toList]

/-- The file phase is the identity on texts with no `file:` at all. -/
theorem interpolateFiles_id (fs : Fs) (s : String)
    (h : occursSeq fileLit s.toList = false) :
    interpolateFiles fs s = Except.ok s := by
  rw [interpolateFiles, fileFallbackPass, scanFileFallback_nil_of_noOccurs _ h,
    List.foldl_nil, scanFileSimple_nil_of_noOccurs _ h, fileSimpleLoop]
  simp [Except.map, mk_toList]

/-- Interpolation is the identity on token-free texts. -/
theorem interpolate_id (env : Env) (fs : Fs) (s : String)
    (h1 : hasDollarBrace s.toList = false)
    (h2 : occursSeq fileLit s.toList = false) :
    interpolate env fs s = Except.ok s := by
  rw [interpolate, interpolateEnvVariables_id env s h1]
  exact interpolateFiles_id fs s h2

/-! ## Builder and config handle (src/thisconfig/src/{builder,config}.rs) -/

/-- `Source` (builder.rs:7-10). -/
inductive Source where
  | file (path : String) (required : Bool)
  | tomlString (content : String)

/-- `ConfigError` (error.rs); external error payloads (`io::Error`,
`toml::de::Error`) are carried as their display strings. -/
inductive ConfigError where
  | fileNotFound (path : String)
  | readError (msg : String)
  | interpolationError (message : String)
  | keyNotFound (key : String)
  | deserializeError (msg : String)
  | validationError (message : String)
  | noSourcesConfigured
  | exeDirNotFound

/-- `Config` (config.rs:10-12): the immutable merged table (the `Arc`
sharing layer has no observable effect on lookups). -/
structure Config where
  inner : Table

/-- The loop of `ConfigBuilder::load` (builder.rs:60-108).  `parse` is the
external `toml::from_str::<Table>`, returning the parsed table or the
syntax diagnostic. -/
def loadGo (parse : String → Except String Table) (env : Env) (fs : Fs) :
    List Source → Table → Except ConfigError Table
  | [], merged => Except.ok merged
  | Source.file path required :: rest, merged =>
    if fs.pathExists path then
      match fs.readToString path with
      | Except.error e => Except.error (ConfigError.readError e)
      | Except.ok content =>
        match interpolate env fs content with
        | Except.error e => Except.error (ConfigError.interpolationError e)
        | Except.ok interpolated =>
          match parse interpolated with
          | Except.error e => Except.error (ConfigError.deserializeError e)
          | Except.ok table => loadGo parse env fs rest (mergeTables merged table)
    else if required then Except.error (ConfigError.fileNotFound path)
    else loadGo parse env fs rest merged
  | Source.tomlString content :: rest, merged =>
    match interpolate env fs content with
    | Except.error e => Except.error (ConfigError.interpolationError e)
    | Except.ok expanded =>
      match parse expanded with
      | Except.error e => Except.error (ConfigError.deserializeError e)
      | Except.ok table => loadGo parse env fs rest (mergeTables merged table)

/-- `ConfigBuilder::load` (builder.rs:60-108): fold the sources into an
initially empty accumulator. -/
def load (parse : String → Except String Table) (env : Env) (fs : Fs)
    (sources : List Source) : Except ConfigError Config :=
  (loadGo parse env fs sources []).map Config.mk

/-- `ConfigBuilder::build` (builder.rs:130-141). -/
def build (parse : String → Except String Table) (env : Env) (fs : Fs)
    (sources : List Source) : Except ConfigError Config :=
  if sources.isEmpty then Except.error ConfigError.noSourcesConfigured
  else load parse env fs sources

/-- The table contributed by a single source: `none` when an optional
missing file is skipped, the interpolated-and-parsed table otherwise;
errors exactly as the corresponding `loadGo` step. -/
def sourceTable (parse : String → Except String Table) (env : Env) (fs : Fs) :
    Source → Except ConfigError (Option Table)
  | Source.file path required =>
    if fs.pathExists path then
      match fs.readToString path with
      | Except.error e => Except.error (ConfigError.readError e)
      | Except.ok content =>
        match interpolate env fs content with
        | Except.error e => Except.error (ConfigError.interpolationError e)
        | Except.ok interpolated =>
          match parse interpolated with
          | Except.error e => Except.error (ConfigError.deserializeError e)
          | Except.ok table => Except.ok (some table)
    else if required then Except.error (ConfigError.fileNotFound path)
    else Except.ok none
  | Source.tomlString content =>
    match interpolate env fs content with
    | Except.error e => Except.error (ConfigError.interpolationError e)
    | Except.ok expanded =>
      match parse expanded with
      | Except.error e => Except.error (ConfigError.deserializeError e)
      | Except.ok table => Except.ok (some table)

/-- The per-source tables of a whole source list, failing at the first
failing source. -/
def sourceTables (parse : String → Except String Table) (env : Env) (fs : Fs) :
    List Source → Except ConfigError (List Table)
  | [] => Except.ok []
  | s :: rest =>
    match sourceTable parse env fs s with
    | Except.error e => Except.error e
    | Except.ok none => sourceTables parse env fs rest
    | Except.ok (some t) =>
      match sourceTables parse env fs rest with
      | Except.error e => Except.error e
      | Except.ok ts => Except.ok (t :: ts)

/-- The value of a key in the last table of the list that defines it, if
any table does. -/
def lastDefined : List Table → String → Option Value
  | [], _ => none
  | t :: rest, k =>
    match lastDefined rest k with
    | some v => some v
    | none => tableGet t k

def isTableValue : Value → Bool
  | Value.table _ => true
  | _ => false

/-- The serde collaborator for one section type `T`: its section key
(`T::key()`) , its deserializer (`T::deserialize(...).ok()`) and its
`Default` value. -/
structure SectionSpec (A : Type) where
  key : String
  deser : Value → Option A
  defaultVal : A

/-- `Config::get` (config.rs:24-31): clone the section under the key and
deserialize it, `none` on a missing key or a failed deserialization. -/
def Config.get {A : Type} (cfg : Config) (S : SectionSpec A) : Option A :=
  match tableGet cfg.inner S.key with
  | none => none
  | some item => S.deser item

/-- `Config::expect` (config.rs:72-75): the panic on a missing or invalid
section is modelled as the `Except.error` carrying the panic message. -/
def Config.expectSection {A : Type} (cfg : Config) (S : SectionSpec A) :
    Except String A :=
  match Config.get cfg S with
  | some v => Except.ok v
  | none =>
    Except.error ("Failed to load configuration for key '" ++ S.key ++ "'")

/-- `Config::get_or_default` (config.rs:82-84). -/
def Config.getOrDefault {A : Type} (cfg : Config) (S : SectionSpec A) : A :=
  match Config.get cfg S with
  | some v => v
  | none => S.defaultVal

/-- The load loop is the left-to-right fold of the per-source tables into
the accumulator, failing exactly when some source fails. -/
theorem loadGo_eq_sourceTables_fold (parse : String → Except String Table)
    (env : Env) (fs : Fs) (sources : List Source) (acc : Table) :
    loadGo parse env fs sources acc =
      (sourceTables parse env fs sources).map (fun ts => ts.foldl mergeTables acc) := by
  induction sources generalizing acc with
  | nil => rfl
  | cons s rest ih =>
    cases s with
    | file path required =>
      by_cases hex : fs.pathExists path
      · rcases hread : fs.readToString path with e | content
        · simp [loadGo, sourceTable, sourceTables, hex, hread, Except.map]
        · rcases hint : interpolate env fs content with e | interp
          · simp [loadGo, sourceTable, sourceTables, hex, hread, hint, Except.map]
          · rcases hparse : parse interp with e | t
            · simp [loadGo, sourceTable, sourceTables, hex, hread, hint, hparse,
                Except.map]
            · simp only [loadGo, sourceTable, sourceTables, hex, hread, hint, hparse,
                if_true, ih]
              cases sourceTables parse env fs rest <;> simp [Except.map]
      · by_cases hreq : required
        · simp [loadGo, sourceTable, sourceTables, hex, hreq, Except.map]
        · simp [loadGo, sourceTable, sourceTables, hex, hreq, ih]
    | tomlString content =>
      rcases hint : interpolate env fs content with e | interp
      · simp [loadGo, sourceTable, sourceTables, hint, Except.map]
      · rcases hparse : parse interp with e | t
        · simp [loadGo, sourceTable, sourceTables, hint, hparse, Except.map]
        · simp only [loadGo, sourceTable, sourceTables, hint, hparse, ih]
          cases sourceTables parse env fs rest <;> simp [Except.map]

/-- Folding a list of tables whose values at `k` are never tables gives
the last defined value of `k`, and keys no table defines keep their
accumulator value. -/
theorem tableGet_foldl_merge_last (ts : List Table) (k : String) (acc : Table)
    (hnd : ∀ t ∈ ts, keysNodup t)
    (hleaf : ∀ t ∈ ts, ∀ v, tableGet t k = some v → isTableValue v = false) :
    tableGet (ts.foldl mergeTables acc) k =
      match lastDefined ts k with
      | some v => some v
      | none => tableGet acc k := by
  induction ts generalizing acc with
  | nil => simp [lastDefined]
  | cons t rest ih =>
    have hstep : tableGet (mergeTables acc t) k =
        match tableGet t k with
        | some v => some v
        | none => tableGet acc k := by
      rcases hget : tableGet t k with _ | v
      · simpa using tableGet_mergeTables_not_mem acc t k hget
      · have hv : isTableValue v = false := hleaf t (by simp) v hget
        rw [tableGet_mergeTables acc t k (hnd t (by simp)), hget]
        rcases v with s | i | fb | b | d | vs | tb
        case table => simp [isTableValue] at hv
        all_goals
          rcases hacc : tableGet acc k with _ | w
          · simp
          · rcases w with s' | i' | fb' | b' | d' | vs' | tb' <;> simp
    rw [List.foldl_cons,
      ih (mergeTables acc t) (fun u hu => hnd u (by simp [hu]))
        (fun u hu => hleaf u (by simp [hu])), hstep]
    simp only [lastDefined]
    rcases lastDefined rest k with _ | v <;> simp

/-! ## Claim theorems -/

/-- **C1**: merging `B` into `A` deep-merges.  For each key `k` present in
`B`: when both `A[k]` and `B[k]` are tables, `B[k]` is merged recursively
into `A[k]` by the same rule; in every other case `B[k]` replaces `A[k]`
wholesale.  Keys of `A` not present in `B` are preserved unchanged.  In
particular merging `{a.c=3, a.d=4}` into `{a.b=1, a.c=2}` yields
`{a.b=1, a.c=3, a.d=4}`. -/
theorem mergeTables_deep_merge_per_key :
    (∀ (A B : Table) (k : String), keysNodup B →
      tableGet (mergeTables A B) k =
        match tableGet B k with
        | none => tableGet A k
        | some v =>
          match tableGet A k, v with
          | some (Value.table bt), Value.table ot =>
            some (Value.table (mergeTables bt ot))
          | _, _ => some v) ∧
    mergeTables [("a", Value.table [("b", Value.int 1), ("c", Value.int 2)])]
        [("a", Value.table [("c", Value.int 3), ("d", Value.int 4)])] =
      [("a", Value.table [("b", Value.int 1), ("c", Value.int 3), ("d", Value.int 4)])] := by
  constructor
  · intro A B k hnd
    exact tableGet_mergeTables A B k hnd
  · simp [mergeTables, mergeInto, tableGet, tableInsert]

/-- Witness for C1 at concrete tables: the key `"y"`, absent from the
incoming table, keeps its accumulator value. -/
theorem mergeTables_deep_merge_per_key_witness :
    tableGet (mergeTables [("x", Value.int 1), ("y", Value.int 5)]
        [("x", Value.str "s")]) "y" = some (Value.int 5) := by
  have h := mergeTables_deep_merge_per_key.1
    [("x", Value.int 1), ("y", Value.int 5)] [("x", Value.str "s")] "y" (by decide)
  simpa [tableGet] using h

/-- **C2**: the built table is the left-to-right pairwise fold of the
per-source tables into an initially empty accumulator; for a leaf key
(one every source defines as a non-table value) the final value comes
from the last source defining it; and the merge is not commutative when
two sources define the same leaf key differently. -/
theorem load_is_left_fold_last_writer_wins :
    (∀ (parse : String → Except String Table) (env : Env) (fs : Fs)
      (sources : List Source),
      load parse env fs sources =
        (sourceTables parse env fs sources).map
          (fun ts => Config.mk (ts.foldl mergeTables []))) ∧
    (∀ (ts : List Table) (k : String),
      (∀ t ∈ ts, keysNodup t) →
      (∀ t ∈ ts, ∀ v, tableGet t k = some v → isTableValue v = false) →
      tableGet (ts.foldl mergeTables []) k = lastDefined ts k) ∧
    mergeTables [("a", Value.int 1)] [("a", Value.int 2)] ≠
      mergeTables [("a", Value.int 2)] [("a", Value.int 1)] := by
  refine ⟨?_, ?_, ?_⟩
  · intro parse env fs sources
    rw [load, loadGo_eq_sourceTables_fold]
    cases sourceTables parse env fs sources <;> simp [Except.map]
  · intro ts k hnd hleaf
    rw [tableGet_foldl_merge_last ts k [] hnd hleaf]
    rcases lastDefined ts k with _ | v <;> simp [tableGet]
  · simp [mergeTables, mergeInto, tableGet, tableInsert]

/-- Witness for C2 at two concrete single-key sources: the later source's
value wins. -/
theorem load_is_left_fold_last_writer_wins_witness :
    tableGet (List.foldl mergeTables []
        [[("a", Value.int 1)], [("a", Value.int 2)]]) "a" =
      lastDefined [[("a", Value.int 1)], [("a", Value.int 2)]] "a" := by
  refine load_is_left_fold_last_writer_wins.2.1
    [[("a", Value.int 1)], [("a", Value.int 2)]] "a" (by decide) ?_
  intro t ht v hv
  rcases List.mem_cons.mp ht with rfl | ht'
  · simp [tableGet] at hv
    rw [← hv]
    rfl
  · rcases List.mem_cons.mp ht' with rfl | h
    · simp [tableGet] at hv
      rw [← hv]
      rfl
    · cases h

/-- **C8**: a required missing file fails the build with a file-not-found
error naming the path; an optional missing file is skipped with no table
contribution; with an optional missing file plus an inline source the
build equals the build from the inline source alone. -/
theorem missing_file_required_vs_optional :
    ∀ (parse : String → Except String Table) (env : Env) (fs : Fs)
      (path : String) (rest : List Source) (acc : Table) (c : String),
      fs.pathExists path = false →
      (loadGo parse env fs (Source.file path true :: rest) acc =
        Except.error (ConfigError.fileNotFound path)) ∧
      (loadGo parse env fs (Source.file path false :: rest) acc =
        loadGo parse env fs rest acc) ∧
      (build parse env fs [Source.file path false, Source.tomlString c] =
        build parse env fs [Source.tomlString c]) := by
  intro parse env fs path rest acc c hex
  refine ⟨?_, ?_, ?_⟩
  · simp [loadGo, hex]
  · simp [loadGo, hex]
  · simp [build, load, loadGo, hex]

/-- Witness for C8 at a concrete empty filesystem and inline source. -/
theorem missing_file_required_vs_optional_witness :
    build (fun _ => Except.ok []) [] ⟨fun _ => false, fun _ => Except.error "io"⟩
        [Source.file "/nope" false, Source.tomlString "x"] =
      build (fun _ => Except.ok []) [] ⟨fun _ => false, fun _ => Except.error "io"⟩
        [Source.tomlString "x"] :=
  (missing_file_required_vs_optional (fun _ => Except.ok []) []
    ⟨fun _ => false, fun _ => Except.error "io"⟩ "/nope" [] [] "x" rfl).2.2

/-- **C9**: a source whose interpolated text fails to parse as TOML fails
the whole build with the parse diagnostic, for a file source under either
`required` flag and for an inline source alike. -/
theorem malformed_source_always_fatal :
    ∀ (parse : String → Except String Table) (env : Env) (fs : Fs)
      (path : String) (required : Bool) (rest : List Source) (acc : Table)
      (content interp e : String),
      (fs.pathExists path = true →
        fs.readToString path = Except.ok content →
        interpolate env fs content = Except.ok interp →
        parse interp = Except.error e →
        loadGo parse env fs (Source.file path required :: rest) acc =
          Except.error (ConfigError.deserializeError e)) ∧
      (interpolate env fs content = Except.ok interp →
        parse interp = Except.error e →
        loadGo parse env fs (Source.tomlString content :: rest) acc =
          Except.error (ConfigError.deserializeError e)) := by
  intro parse env fs path required rest acc content interp e
  constructor
  · intro hex hread hint hparse
    simp [loadGo, hex, hread, hint, hparse]
  · intro hint hparse
    simp [loadGo, hint, hparse]

/-- **C10**: `Config::get` is `Some` exactly when the section key is
present and deserializes; a present-but-malformed section behaves like an
absent one: `get` yields `none`, `get_or_default` yields the default, and
`expect` fails with the same message in both cases. -/
theorem config_get_section_semantics :
    ∀ (A : Type) (cfg : Config) (S : SectionSpec A),
      (∀ a, Config.get cfg S = some a ↔
        ∃ v, tableGet cfg.inner S.key = some v ∧ S.deser v = some a) ∧
      (∀ v, tableGet cfg.inner S.key = some v → S.deser v = none →
        Config.get cfg S = none ∧
        Config.getOrDefault cfg S = S.defaultVal ∧
        Config.expectSection cfg S =
          Except.error ("Failed to load configuration for key '" ++ S.key ++ "'")) ∧
      (tableGet cfg.inner S.key = none →
        Config.get cfg S = none ∧
        Config.getOrDefault cfg S = S.defaultVal ∧
        Config.expectSection cfg S =
          Except.error ("Failed to load configuration for key '" ++ S.key ++ "'")) := by
  intro A cfg S
  refine ⟨?_, ?_, ?_⟩
  · intro a
    constructor
    · intro h
      rcases hget : tableGet cfg.inner S.key with _ | v
      · rw [Config.get, hget] at h
        cases h
      · rw [Config.get, hget] at h
        exact ⟨v, rfl, h⟩
    · rintro ⟨v, hget, hdes⟩
      rw [Config.get, hget]
      exact hdes
  · intro v hget hdes
    have hnone : Config.get cfg S = none := by
      rw [Config.get, hget]
      exact hdes
    exact ⟨hnone, by rw [Config.getOrDefault, hnone],
      by rw [Config.expectSection, hnone]⟩
  · intro hget
    have hnone : Config.get cfg S = none := by
      rw [Config.get, hget]
    exact ⟨hnone, by rw [Config.getOrDefault, hnone],
      by rw [Config.expectSection, hnone]⟩

/-- Witness for C10 at a concrete malformed-but-present section: an
integer deserializer applied to a string section. -/
theorem config_get_section_semantics_witness :
    Config.get ⟨[("test", Value.str "bad")]⟩
        (⟨"test", fun v => match v with
          | Value.int i => some i
          | _ => none, 0⟩ : SectionSpec Int) = none ∧
    Config.getOrDefault ⟨[("test", Value.str "bad")]⟩
        (⟨"test", fun v => match v with
          | Value.int i => some i
          | _ => none, 0⟩ : SectionSpec Int) = 0 ∧
    Config.expectSection ⟨[("test", Value.str "bad")]⟩
        (⟨"test", fun v => match v with
          | Value.int i => some i
          | _ => none, 0⟩ : SectionSpec Int) =
      Except.error "Failed to load configuration for key 'test'" := by
  have h := (config_get_section_semantics Int ⟨[("test", Value.str "bad")]⟩
      ⟨"test", fun v => match v with
        | Value.int i => some i
        | _ => none, 0⟩).2.1 (Value.str "bad") (by simp [tableGet]) rfl
  simpa using h

/-- **C3**: `Interpolator::interpolate` runs the environment phase first
and completely, then the file phase over its result.  Consequently a
`${VAR}` whose environment value holds a `file:PATH` token ends up as the
file's escaped content, while a file whose content holds a `${...}` token
is not further env-substituted in the same pass. -/
theorem interpolate_env_phase_then_file_phase :
    (∀ (env : Env) (fs : Fs) (content : String),
      interpolate env fs content =
        (interpolateEnvVariables env content).bind (interpolateFiles fs)) ∧
    interpolate [("VAR", "file:/p")]
      ⟨fun _ => true, fun p => if p = "/p" then Except.ok "hello" else Except.error "nf"⟩
      "${VAR}" = Except.ok "hello" ∧
    interpolate [("HOME", "secret")]
      ⟨fun _ => true, fun p => if p = "/p" then Except.ok "${HOME}" else Except.error "nf"⟩
      "file:/p" = Except.ok "${HOME}" := by
  refine ⟨fun env fs content => rfl, ?_, ?_⟩
  · have henv : interpolateEnvVariables [("VAR", "file:/p")] "${VAR}" =
        Except.ok "file:/p" := by
      have h := interpolateEnvVariables_braced [("VAR", "file:/p")] []
        ['V', 'A', 'R'] [] (by decide) (by decide) (by decide)
      exact h
    have hfile : interpolateFiles
        ⟨fun _ => true, fun p => if p = "/p" then Except.ok "hello" else Except.error "nf"⟩
        "file:/p" = Except.ok "hello" := by
      have h := interpolateFiles_simple_ok
        ⟨fun _ => true, fun p => if p = "/p" then Except.ok "hello" else Except.error "nf"⟩
        ['/', 'p'] "hello" (by decide) (by decide) rfl
      exact h
    rw [interpolate, henv]
    exact hfile
  · have henv : interpolateEnvVariables [("HOME", "secret")] "file:/p" =
        Except.ok "file:/p" :=
      interpolateEnvVariables_id _ _ (by decide)
    have hfile : interpolateFiles
        ⟨fun _ => true, fun p => if p = "/p" then Except.ok "${HOME}" else Except.error "nf"⟩
        "file:/p" = Except.ok "${HOME}" := by
      have h := interpolateFiles_simple_ok
        ⟨fun _ => true, fun p => if p = "/p" then Except.ok "${HOME}" else Except.error "nf"⟩
        ['/', 'p'] "${HOME}" (by decide) (by decide) rfl
      exact h
    rw [interpolate, henv]
    exact hfile

/-- **C4**: a `${NAME}` token with no fallback is strict: an unset `NAME`
fails the environment phase with an error naming `NAME` (and such an
interpolation failure aborts the whole load of that source); a set `NAME`
is replaced by exactly the environment value. -/
theorem env_braced_strict :
    ∀ (env : Env) (pre name post : List Char),
      noDollar pre → noDollar post → validName name →
      (envVar env (String.mk name) = none →
        interpolateEnvVariables env
            (String.mk (pre ++ ('$' :: '{' :: (name ++ '}' :: post)))) =
          Except.error ("environment variable '" ++ String.mk name ++ "' not found")) ∧
      (∀ v, envVar env (String.mk name) = some v →
        interpolateEnvVariables env
            (String.mk (pre ++ ('$' :: '{' :: (name ++ '}' :: post)))) =
          Except.ok (String.mk (pre ++ (v.toList ++ post)))) ∧
      (∀ (parse : String → Except String Table) (fs : Fs) (content e : String)
        (rest : List Source) (acc : Table),
        interpolateEnvVariables env content = Except.error e →
        loadGo parse env fs (Source.tomlString content :: rest) acc =
          Except.error (ConfigError.interpolationError e)) := by
  intro env pre name post hpre hpost hname
  refine ⟨?_, ?_, ?_⟩
  · intro henv
    have h := interpolateEnvVariables_braced env pre name post hpre hpost hname
    rw [henv] at h
    exact h
  · intro v henv
    have h := interpolateEnvVariables_braced env pre name post hpre hpost hname
    rw [henv] at h
    exact h
  · intro parse fs content e rest acc herr
    have hint : interpolate env fs content = Except.error e := by
      rw [interpolate, herr]
      rfl
    simp [loadGo, hint]

/-- Witness for C4 at a concrete unset variable. -/
theorem env_braced_strict_witness :
    interpolateEnvVariables []
        (String.mk ([] ++ ('$' :: '{' :: (['N', 'A', 'M', 'E'] ++ '}' :: [])))) =
      Except.error ("environment variable '" ++ String.mk ['N', 'A', 'M', 'E'] ++
        "' not found") :=
  (env_braced_strict [] [] ['N', 'A', 'M', 'E'] []
    (by decide) (by decide) (by decide)).1 rfl

/-- **C5**: a `${NAME:default}` token never fails the environment phase,
for every default including the empty string: the environment value is
substituted when `NAME` is set, the default verbatim when it is unset. -/
theorem env_fallback_never_fails :
    ∀ (env : Env) (pre name dflt post : List Char),
      noDollar pre → noDollar post → validName name →
      (∀ c ∈ dflt, c ≠ '}' ∧ c ≠ '$') →
      (envVar env (String.mk name) = none →
        interpolateEnvVariables env
            (String.mk (pre ++ ('$' :: '{' :: (name ++ ':' :: (dflt ++ '}' :: post))))) =
          Except.ok (String.mk (pre ++ (dflt ++ post)))) ∧
      (∀ v, envVar env (String.mk name) = some v → noDollar v.toList →
        interpolateEnvVariables env
            (String.mk (pre ++ ('$' :: '{' :: (name ++ ':' :: (dflt ++ '}' :: post))))) =
          Except.ok (String.mk (pre ++ (v.toList ++ post)))) := by
  intro env pre name dflt post hpre hpost hname hdflt
  constructor
  · intro henv
    have h := interpolateEnvVariables_fallback env pre name dflt post hpre hpost hname
      hdflt (by
        rw [henv]
        exact fun c hc => (hdflt c hc).2)
    rw [henv] at h
    exact h
  · intro v henv hv
    have h := interpolateEnvVariables_fallback env pre name dflt post hpre hpost hname
      hdflt (by
        rw [henv]
        exact hv)
    rw [henv] at h
    exact h

/-- Witness for C5 at a concrete unset variable with the empty default. -/
theorem env_fallback_never_fails_witness :
    interpolateEnvVariables []
        (String.mk ([] ++ ('$' :: '{' :: (['X'] ++ ':' :: ([] ++ '}' :: []))))) =
      Except.ok (String.mk ([] ++ ([] ++ []))) :=
  (env_fallback_never_fails [] [] ['X'] [] []
    (by decide) (by decide) (by decide) (by decide)).1 rfl

/-- **C6**: a `file:PATH:default` token never fails the file phase: a
successful read substitutes the content escaped for embedding in a TOML
double-quoted string, any read failure substitutes the default verbatim.
A `file:PATH` token without fallback fails the whole interpolation on a
read failure, surfacing the path and the underlying I/O error. -/
theorem file_fallback_vs_strict :
    ∀ (fs : Fs) (path dflt : List Char),
      (∀ ch ∈ path, isFilePathChar ch = true) → path ≠ [] →
      (∀ ch ∈ dflt, isFileTightChar ch = true) → dflt ≠ [] →
      (∀ c, fs.readToString (String.mk path) = Except.ok c →
        (∀ ch ∈ (escapeTomlString c).toList, ch ≠ ':') →
        interpolateFiles fs (String.mk (fileLit ++ path ++ ':' :: dflt)) =
          Except.ok (escapeTomlString c)) ∧
      (∀ e, fs.readToString (String.mk path) = Except.error e →
        interpolateFiles fs (String.mk (fileLit ++ path ++ ':' :: dflt)) =
          Except.ok (String.mk dflt)) ∧
      (∀ e, (∀ ch ∈ path, isFileTightChar ch = true) →
        fs.readToString (String.mk path) = Except.error e →
        interpolateFiles fs (String.mk (fileLit ++ path)) =
          Except.error ("Failed to read file '" ++ String.mk path ++ "': " ++ e)) := by
  intro fs path dflt hpath hpne hdflt hdne
  refine ⟨?_, ?_, ?_⟩
  · intro c hread hesc
    exact interpolateFiles_fallback_ok fs path dflt c hpath hpne hdflt hdne hread hesc
  · intro e hread
    exact interpolateFiles_fallback_err fs path dflt e hpath hpne hdflt hdne hread
  · intro e htight hread
    exact interpolateFiles_simple_err fs path e htight hpne hread

/-- Witness for C6 at a concrete readable file with fallback present. -/
theorem file_fallback_vs_strict_witness :
    interpolateFiles
        ⟨fun _ => true, fun p => if p = "/p" then Except.ok "hello" else Except.error "nf"⟩
        (String.mk (fileLit ++ ['/', 'p'] ++ ':' :: ['d'])) =
      Except.ok (escapeTomlString "hello") :=
  ((file_fallback_vs_strict
    ⟨fun _ => true, fun p => if p = "/p" then Except.ok "hello" else Except.error "nf"⟩
    ['/', 'p'] ['d'] (by decide) (by decide) (by decide) (by decide)).1
    "hello" rfl (by decide))

/-- **C7**: a bare `$NAME` without braces is never substituted: a text
with no `${` pair and no `file:` sequence passes through interpolation
unchanged, whatever the environment holds. -/
theorem bare_dollar_passthrough :
    ∀ (env : Env) (fs : Fs) (s : String),
      hasDollarBrace s.toList = false →
      occursSeq fileLit s.toList = false →
      interpolate env fs s = Except.ok s :=
  fun env fs s h1 h2 => interpolate_id env fs s h1 h2

/-- Witness for C7: `$PLAIN_VAR` survives even though the variable is
set. -/
theorem bare_dollar_passthrough_witness :
    interpolate [("PLAIN_VAR", "should_not_appear")]
        ⟨fun _ => false, fun _ => Except.error "nf"⟩
        "hello $PLAIN_VAR" = Except.ok "hello $PLAIN_VAR" :=
  bare_dollar_passthrough _ _ _ (by decide) (by decide)

/-- Witness for C9 at an inline source whose (token-free) text is
rejected by the parser. -/
theorem malformed_source_always_fatal_witness :
    loadGo (fun _ => Except.error "syntax") []
        ⟨fun _ => false, fun _ => Except.error "nf"⟩
        [Source.tomlString "x"] [] =
      Except.error (ConfigError.deserializeError "syntax") :=
  (malformed_source_always_fatal (fun _ => Except.error "syntax") []
    ⟨fun _ => false, fun _ => Except.error "nf"⟩ "" false [] [] "x" "x" "syntax").2
    (interpolate_id _ _ "x" (by decide) (by decide)) rfl

end ThisConfig
